import Mathlib

/-!
# Woodcutter — 2D outline cleanup engine: shallow embedding and verification

This file embeds the 2D outline cleanup / simplification engine of the
woodcutter repository (`src/shapeCleanup.tsx` and `autoScaleShape` of
`src/ShapeSelector.tsx`) and proves properties about it.

Modelling choices:

* A `three.js` `Vector2` is a pair of numbers; we model it as `K × K`
  for a linear ordered field `K`.  The purely rational parts of the code
  are embedded generically (so they can be evaluated at `K = ℚ`); the
  ray-sampling contour extractor uses `Math.cos`, `Math.sin` and
  `Math.sqrt` as *values*, so it is embedded at `K = ℝ`.
* A `three.js` `Shape` built by `moveTo`/`lineTo` is modelled as the
  ordered list of its vertices; `shape.getPoints()` and
  `createShapeFromPoints` are then the identity, as in the spec's data
  model ("Polygon/Shape: a PointSequence").
* JavaScript numeric literals (`0.001`, `0.0001`, `1e-10`) are modelled
  by the exact rationals they denote.
* `Vector2.distanceTo` computes `Math.sqrt(dx*dx + dy*dy)`.  Every use
  of a distance in the code is either a comparison of two distances or a
  comparison of a distance with a constant; both are embedded exactly
  through squared distances: `√a < √b ↔ a < b`, and
  `√d > t ↔ t < 0 ∨ t² < d` (see `sqrtGt` and the justification lemma
  `sqrtGt_iff_lt_sqrt`).  The only place a square root is used as a
  *value* is `calculateMaxRadius`, embedded with `Real.sqrt`.
-/

namespace Woodcutter

/-- A 2D point, modelling `three.js` `Vector2`. -/
abbrev Point (K : Type*) := K × K

variable {K : Type*} [LinearOrderedField K]

/-- Squared Euclidean distance between two points.
`Vector2.distanceTo` in the source is `Real.sqrt` of this. -/
def distSq (p q : Point K) : K := (p.1 - q.1) ^ 2 + (p.2 - q.2) ^ 2

/-- Exact embedding of the comparison `Real.sqrt dsq > t` (for `dsq ≥ 0`):
it holds iff `t` is negative or `t² < dsq`. -/
def sqrtGt (dsq t : K) : Prop := t < 0 ∨ t * t < dsq

instance (dsq t : K) : Decidable (sqrtGt dsq t) :=
  inferInstanceAs (Decidable (_ ∨ _))

theorem distSq_nonneg (p q : Point K) : 0 ≤ distSq p q :=
  add_nonneg (sq_nonneg _) (sq_nonneg _)

/-- Justification of the `sqrtGt` embedding: over `ℝ`, for a nonnegative
radicand, `sqrtGt dsq t` says exactly `t < Real.sqrt dsq`. -/
theorem sqrtGt_iff_lt_sqrt (dsq t : ℝ) (h : 0 ≤ dsq) :
    sqrtGt dsq t ↔ t < Real.sqrt dsq := by
  unfold sqrtGt
  constructor
  · rintro (ht | ht)
    · exact lt_of_lt_of_le ht (Real.sqrt_nonneg _)
    · rcases lt_or_le t 0 with h0 | h0
      · exact lt_of_lt_of_le h0 (Real.sqrt_nonneg _)
      · have := Real.sqrt_lt_sqrt (by positivity) ht
        rwa [Real.sqrt_mul_self h0] at this
  · intro ht
    rcases lt_or_le t 0 with h0 | h0
    · exact Or.inl h0
    · refine Or.inr ?_
      have := Real.sq_sqrt h
      nlinarith [Real.sqrt_nonneg dsq]

/-!
## Deduplicator — `removeDuplicatePoints` (`shapeCleanup.tsx:33-51`)

The source keeps an array `result` initialised with the first point and,
scanning the remaining points in order, pushes a point exactly when its
distance to the last pushed point exceeds the tolerance.  We embed the
loop as a structural recursion carrying the last kept point (`prev`,
which in the source is `result[result.length - 1]`).
-/

/-- The loop of `removeDuplicatePoints`: `prev` is the most recently kept
point; a point is kept iff its distance to `prev` exceeds `tol`. -/
def dedupAux (tol : K) : Point K → List (Point K) → List (Point K)
  | _, [] => []
  | prev, c :: rest =>
    if sqrtGt (distSq prev c) tol then c :: dedupAux tol c rest
    else dedupAux tol prev rest

/-- `removeDuplicatePoints` from `shapeCleanup.tsx`: always keeps the
first point, then drops points within `tol` of the last kept point.
Default tolerance in the source: `0.0001`. -/
def removeDuplicatePoints (points : List (Point K)) (tol : K := 1 / 10000) :
    List (Point K) :=
  match points with
  | [] => []
  | p :: rest => p :: dedupAux tol p rest

theorem dedupAux_length_le (tol : K) (prev : Point K) (l : List (Point K)) :
    (dedupAux tol prev l).length ≤ l.length := by
  induction l generalizing prev with
  | nil => simp [dedupAux]
  | cons c rest ih =>
    simp only [dedupAux]
    split
    · simpa using Nat.succ_le_succ (ih c)
    · exact le_trans (ih prev) (Nat.le_succ _)

theorem dedupAux_sublist (tol : K) (prev : Point K) (l : List (Point K)) :
    (dedupAux tol prev l).Sublist l := by
  induction l generalizing prev with
  | nil => simp [dedupAux]
  | cons c rest ih =>
    simp only [dedupAux]
    split
    · exact List.Sublist.cons₂ c (ih c)
    · exact List.Sublist.cons c (ih prev)

theorem dedupAux_chain (tol : K) (prev : Point K) (l : List (Point K)) :
    List.Chain (fun a b => sqrtGt (distSq a b) tol) prev (dedupAux tol prev l) := by
  induction l generalizing prev with
  | nil => simp [dedupAux]
  | cons c rest ih =>
    simp only [dedupAux]
    split
    · exact List.Chain.cons (by assumption) (ih c)
    · exact ih prev

theorem removeDuplicatePoints_length_le (points : List (Point K)) (tol : K) :
    (removeDuplicatePoints points tol).length ≤ points.length := by
  cases points with
  | nil => simp [removeDuplicatePoints]
  | cons p rest =>
    simpa [removeDuplicatePoints] using Nat.succ_le_succ (dedupAux_length_le tol p rest)

theorem removeDuplicatePoints_sublist (points : List (Point K)) (tol : K) :
    (removeDuplicatePoints points tol).Sublist points := by
  cases points with
  | nil => simp [removeDuplicatePoints]
  | cons p rest =>
    simpa [removeDuplicatePoints] using List.Sublist.cons₂ p (dedupAux_sublist tol p rest)

/-!
## CollinearityFilter — `removeCollinearPoints` (`shapeCleanup.tsx:53-80`)

The source keeps `points[0]`, then for `i = 1 .. n-2` keeps `points[i]`
exactly when the absolute cross product of `(curr - prev)` and
`(next - prev)` exceeds the tolerance (neighbours are taken from the
*original* list), and finally keeps `points[n-1]`.  The loop reads the
sliding window of three consecutive original points, which we embed as a
recursion over consecutive triples.
-/

/-- `|cross product|` of `(b - a)` and `(c - a)`, as in the source. -/
def crossAbs (a b c : Point K) : K :=
  |(b.1 - a.1) * (c.2 - a.2) - (c.1 - a.1) * (b.2 - a.2)|

/-- The interior loop of `removeCollinearPoints`: from each window
`prev, curr, next` of consecutive original points, keep `curr` iff the
cross product magnitude exceeds `tol`. -/
def keepNonCollinear (tol : K) : List (Point K) → List (Point K)
  | a :: b :: c :: rest =>
    if tol < crossAbs a b c then b :: keepNonCollinear tol (b :: c :: rest)
    else keepNonCollinear tol (b :: c :: rest)
  | _ => []

/-- `removeCollinearPoints` from `shapeCleanup.tsx`: length ≤ 2 passes
through; otherwise first point, filtered interior, last point.  Default
tolerance in the source: `0.001`. -/
def removeCollinearPoints (points : List (Point K)) (tol : K := 1 / 1000) :
    List (Point K) :=
  if points.length ≤ 2 then points
  else points.take 1 ++ keepNonCollinear tol points ++ points.drop (points.length - 1)

/-!
## PolylineSimplifier — `douglasPeucker` (`shapeCleanup.tsx:82-146`)

`pointToLineDistance` returns the distance from a point to the segment
`lineStart–lineEnd` with the projection parameter clamped to `[0,1]`
(and point-to-point distance for a zero-length segment).  We embed its
*square* (the sole use compares distances with each other and with the
tolerance, both monotone under squaring).
-/

/-- Square of `pointToLineDistance` from the source: clamped
point-to-segment distance, squared. -/
def pointToLineDistanceSq (point lineStart lineEnd : Point K) : K :=
  let A := point.1 - lineStart.1
  let B := point.2 - lineStart.2
  let C := lineEnd.1 - lineStart.1
  let D := lineEnd.2 - lineStart.2
  let dt := A * C + B * D
  let lenSq := C * C + D * D
  if lenSq = 0 then A * A + B * B
  else
    let param := dt / lenSq
    let q : Point K :=
      if param < 0 then lineStart
      else if 1 < param then lineEnd
      else (lineStart.1 + param * C, lineStart.2 + param * D)
    (point.1 - q.1) ^ 2 + (point.2 - q.2) ^ 2

theorem pointToLineDistanceSq_nonneg (p a b : Point K) :
    0 ≤ pointToLineDistanceSq p a b := by
  unfold pointToLineDistanceSq
  dsimp only
  split
  · nlinarith [sq_nonneg (p.1 - a.1), sq_nonneg (p.2 - a.2)]
  · exact add_nonneg (sq_nonneg _) (sq_nonneg _)

/-- The max-distance scan of `douglasPeucker`
(`let maxDistance = 0; let maxIndex = 0; for ... if (distance > maxDistance)`):
fold the index list, updating the accumulator `(maxDistSq, maxIndex)`
whenever the current distance strictly exceeds the stored one. -/
def farthestAux (f : ℕ → K) (l : List ℕ) (acc : K × ℕ) : K × ℕ :=
  l.foldl (fun a i => if a.1 < f i then (f i, i) else a) acc

/-- The max-distance scan of `douglasPeucker` applied to a concrete
point list: scan interior indices `1 .. n-2`, measuring the clamped
squared distance to the chord (first point, last point). -/
def farthestOf (points : List (Point K)) : K × ℕ :=
  farthestAux
    (fun i => pointToLineDistanceSq (points.getD i (0, 0)) (points.getD 0 (0, 0))
      (points.getD (points.length - 1) (0, 0)))
    (List.range' 1 (points.length - 2)) (0, 0)

/-- `douglasPeucker` from `shapeCleanup.tsx`.  Length ≤ 2 is returned
unchanged; otherwise the interior point farthest from the chord
(first, last) is found (`farthestOf`, earliest index winning ties); if
its distance exceeds `tol` the two halves are simplified recursively
and concatenated dropping the duplicated junction
(`left.slice(0,-1).concat(right)`), else only the endpoints are
returned.  The inner `else` branch guarded by `h2` is unreachable for
`0 ≤ tol`; for `tol < 0` it marks inputs on which the source recursion
does not terminate. -/
def douglasPeucker (points : List (Point K)) (tol : K) : List (Point K) :=
  if points.length ≤ 2 then points
  else
    if sqrtGt (farthestOf points).1 tol then
      if h2 : 1 ≤ (farthestOf points).2 ∧ (farthestOf points).2 + 2 ≤ points.length then
        (douglasPeucker (points.take ((farthestOf points).2 + 1)) tol).dropLast ++
          douglasPeucker (points.drop (farthestOf points).2) tol
      else [points.getD 0 (0, 0), points.getD (points.length - 1) (0, 0)]
    else [points.getD 0 (0, 0), points.getD (points.length - 1) (0, 0)]
termination_by points.length
decreasing_by
  · simp only [List.length_take]
    omega
  · simp only [List.length_drop]
    omega

/-!
## Normal pipeline — `normalCleanup` (`shapeCleanup.tsx:16-31`)

`shape.getPoints()` and `createShapeFromPoints` are identities in the
point-sequence model, so `normalCleanup` is the three-stage pipeline
with an early return for the empty sequence.
-/

/-- `normalCleanup` from `shapeCleanup.tsx`: Deduplicator (tol `0.0001`)
→ CollinearityFilter (tol `0.001`) → Douglas–Peucker (tol `0.001`),
with the empty sequence returned unchanged. -/
def normalCleanup (points : List (Point K)) : List (Point K) :=
  if points.length = 0 then points
  else
    douglasPeucker
      (removeCollinearPoints (removeDuplicatePoints points (1 / 10000)) (1 / 1000))
      (1 / 1000)

/-!
## Geometry primitive — `lineIntersection` (`shapeCleanup.tsx:258-281`)
-/

/-- `lineIntersection` from `shapeCleanup.tsx`: intersection of line
`p1p2` with segment `p3p4`.  Returns `none` when `|denom| < 1e-10`
(near-parallel) or when the `p3p4`-parameter `u` falls outside `[0,1]`;
the `p1p2`-parameter `t` is unconstrained (infinite ray). -/
def lineIntersection (p1 p2 p3 p4 : Point K) : Option (Point K) :=
  let denom := (p1.1 - p2.1) * (p3.2 - p4.2) - (p1.2 - p2.2) * (p3.1 - p4.1)
  if |denom| < 1 / 10000000000 then none
  else
    let t := ((p1.1 - p3.1) * (p3.2 - p4.2) - (p1.2 - p3.2) * (p3.1 - p4.1)) / denom
    let u := -((p1.1 - p2.1) * (p1.2 - p3.2) - (p1.2 - p2.2) * (p1.1 - p3.1)) / denom
    if 0 ≤ u ∧ u ≤ 1 then
      some (p1.1 + t * (p2.1 - p1.1), p1.2 + t * (p2.2 - p1.2))
    else none

/-!
## ContourExtractor (`shapeCleanup.tsx:177-256`)

`findRayShapeIntersection` loops over the edges `i → (i+1) mod N`,
keeping the qualifying intersection (nonnegative dot product with the
ray direction) closest to the ray start.  The source tracks the best
point together with its distance (initially `Infinity`); we carry the
best point as an `Option` and recompute its distance, which is the same
state (the stored distance always equals the distance of the stored
point, and every finite distance is below `Infinity`).  The distance
comparison `distance < closestDistance` compares two square roots and
is embedded on squares.
-/

/-- Dot product of 2D vectors. -/
def dot2 (v w : Point K) : K := v.1 * w.1 + v.2 * w.2

/-- One step of `findRayShapeIntersection`'s loop: consider the
intersection with edge `(es, ee)`, replacing the best point when the
candidate qualifies (dot product ≥ 0) and is strictly closer. -/
def rayStep (rayStart rayEnd : Point K) (best : Option (Point K))
    (es ee : Point K) : Option (Point K) :=
  match lineIntersection rayStart rayEnd es ee with
  | none => best
  | some q =>
    if 0 ≤ dot2 (rayEnd.1 - rayStart.1, rayEnd.2 - rayStart.2)
        (q.1 - rayStart.1, q.2 - rayStart.2) then
      match best with
      | none => some q
      | some b => if distSq rayStart q < distSq rayStart b then some q else best
    else best

/-- `findRayShapeIntersection` from `shapeCleanup.tsx`: fold `rayStep`
over the edges `i → (i+1) mod N` of the shape. -/
def findRayShapeIntersection (rayStart rayEnd : Point K)
    (shapePoints : List (Point K)) : Option (Point K) :=
  (List.range shapePoints.length).foldl
    (fun best i =>
      rayStep rayStart rayEnd best (shapePoints.getD i (0, 0))
        (shapePoints.getD ((i + 1) % shapePoints.length) (0, 0)))
    none

/-- The qualifying candidate a single edge `(es, ee)` contributes to a
ray: its `lineIntersection` with the ray, when it exists and its
displacement from the ray start has nonnegative dot product with the ray
direction.  (Specification-side companion of `rayStep`.) -/
def rayCand (rayStart rayEnd es ee : Point K) : Option (Point K) :=
  match lineIntersection rayStart rayEnd es ee with
  | none => none
  | some q =>
    if 0 ≤ dot2 (rayEnd.1 - rayStart.1, rayEnd.2 - rayStart.2)
        (q.1 - rayStart.1, q.2 - rayStart.2) then some q
    else none

/-- The list of qualifying candidate intersections a ray sees over all
edges `i → (i+1) mod N`.  (Specification-side companion of
`findRayShapeIntersection`.) -/
def rayCandidates (rayStart rayEnd : Point K) (shapePoints : List (Point K)) :
    List (Point K) :=
  (List.range shapePoints.length).filterMap
    (fun i =>
      rayCand rayStart rayEnd (shapePoints.getD i (0, 0))
        (shapePoints.getD ((i + 1) % shapePoints.length) (0, 0)))

/-- The best-so-far update of `findRayShapeIntersection`'s loop, for a
qualifying candidate `q` (source: `if (distance < closestDistance)`,
initial `closestDistance = Infinity`). -/
def updBest (rayStart : Point K) (best : Option (Point K)) (q : Point K) :
    Option (Point K) :=
  match best with
  | none => some q
  | some b => if distSq rayStart q < distSq rayStart b then some q else best

/-- `rayStep` processes exactly the qualifying candidate of its edge. -/
theorem rayStep_eq_updBest (rayStart rayEnd best es ee) :
    rayStep (K := K) rayStart rayEnd best es ee =
      match rayCand rayStart rayEnd es ee with
      | none => best
      | some q => updBest rayStart best q := by
  unfold rayStep rayCand updBest
  cases lineIntersection rayStart rayEnd es ee with
  | none => rfl
  | some q =>
    by_cases hdot : 0 ≤ dot2 (rayEnd.1 - rayStart.1, rayEnd.2 - rayStart.2)
        (q.1 - rayStart.1, q.2 - rayStart.2)
    · simp only [hdot, if_true]
    · simp only [hdot, if_false]

/-- `calculateShapeCenter` from `shapeCleanup.tsx`: arithmetic mean of
the points. -/
def calculateShapeCenter (points : List (Point K)) : Point K :=
  ((points.map Prod.fst).sum / points.length, (points.map Prod.snd).sum / points.length)

/-- `calculateMaxRadius` from `shapeCleanup.tsx`: greatest distance
from the center to any point (a square root used as a *value*, hence
over `ℝ`). -/
noncomputable def calculateMaxRadius (points : List (Point ℝ)) (center : Point ℝ) : ℝ :=
  points.foldl (fun m p => max m (Real.sqrt (distSq center p))) 0

/-- Ray start point of ray `i` in `createOuterContourByRaySampling`:
angle `θ = (i / 360) · π · 2`, start `center + (cos θ, sin θ) · (1.5 · maxRadius)`. -/
noncomputable def rayStartPoint (points : List (Point ℝ)) (i : ℕ) : Point ℝ :=
  ((calculateShapeCenter points).1 +
      Real.cos ((i : ℝ) / 360 * Real.pi * 2) *
        (calculateMaxRadius points (calculateShapeCenter points) * 1.5),
    (calculateShapeCenter points).2 +
      Real.sin ((i : ℝ) / 360 * Real.pi * 2) *
        (calculateMaxRadius points (calculateShapeCenter points) * 1.5))

/-- `createOuterContourByRaySampling` from `shapeCleanup.tsx`: fewer
than 3 points pass through; otherwise cast 360 rays toward the center,
pushing each ray's nearest qualifying intersection in ray order. -/
noncomputable def createOuterContourByRaySampling (points : List (Point ℝ)) :
    List (Point ℝ) :=
  if points.length < 3 then points
  else
    (List.range 360).foldl
      (fun acc i =>
        match findRayShapeIntersection (rayStartPoint points i)
            (calculateShapeCenter points) points with
        | some q => acc ++ [q]
        | none => acc)
      []

/-!
## Orchestrator — `cleanupShape` / `aggressiveCleanup` (`shapeCleanup.tsx:3-14,162-175`)
-/

/-- `aggressiveCleanup` from `shapeCleanup.tsx`: empty input returned
unchanged; otherwise Normal cleanup, contour extraction, Normal cleanup
again. -/
noncomputable def aggressiveCleanup (points : List (Point ℝ)) : List (Point ℝ) :=
  if points.length = 0 then points
  else normalCleanup (createOuterContourByRaySampling (normalCleanup points))

/-- `cleanupShape` from `shapeCleanup.tsx`: dispatch on the numeric
cleanup mode (`0` None, `1` Normal, `2` Aggressive, anything else falls
through to the input). -/
noncomputable def cleanupShape (points : List (Point ℝ)) (cleanupMethod : ℤ) :
    List (Point ℝ) :=
  if cleanupMethod = 0 then points
  else if cleanupMethod = 1 then normalCleanup points
  else if cleanupMethod = 2 then aggressiveCleanup points
  else points

/-!
## ShapeNormalizer — `autoScaleShape` (`ShapeSelector.tsx:18-51`)

`Box2().expandByPoint` over all points computes the componentwise
min/max; starting the fold of the remaining points at `(p, p)` is the
same as expanding the empty box by every point.  `getSize` is
`max - min`, `getCenter` is `(min + max) / 2`.
-/

/-- `Box2.expandByPoint`: componentwise min/max. -/
def expandBox (b : Point K × Point K) (q : Point K) : Point K × Point K :=
  ((min b.1.1 q.1, min b.1.2 q.2), (max b.2.1 q.1, max b.2.2 q.2))

/-- Axis-aligned bounding box `(min, max)` of `p :: rest`. -/
def bboxOf (p : Point K) (rest : List (Point K)) : Point K × Point K :=
  rest.foldl expandBox (p, p)

/-- `max(size.x, size.y)` of the bounding box of `p :: rest`. -/
def bboxMaxDim (p : Point K) (rest : List (Point K)) : K :=
  max ((bboxOf p rest).2.1 - (bboxOf p rest).1.1)
    ((bboxOf p rest).2.2 - (bboxOf p rest).1.2)

/-- `autoScaleShape` from `ShapeSelector.tsx`: empty input or a
degenerate bounding box (`maxDimension === 0`) passes through;
otherwise every point is mapped to `(point - center) * (1 / maxDim)`. -/
def autoScaleShape (points : List (Point K)) : List (Point K) :=
  match points with
  | [] => points
  | p :: rest =>
    if bboxMaxDim p rest = 0 then p :: rest
    else
      (p :: rest).map (fun q =>
        ((q.1 - ((bboxOf p rest).1.1 + (bboxOf p rest).2.1) / 2) * (1 / bboxMaxDim p rest),
          (q.2 - ((bboxOf p rest).1.2 + (bboxOf p rest).2.2) / 2) * (1 / bboxMaxDim p rest)))

/-!
## Further Deduplicator lemmas
-/

theorem removeDuplicatePoints_chain (points : List (Point K)) (tol : K) :
    List.Chain' (fun a b => sqrtGt (distSq a b) tol)
      (removeDuplicatePoints points tol) := by
  cases points with
  | nil => simp [removeDuplicatePoints]
  | cons p rest => exact dedupAux_chain tol p rest

/-- C3. removeDuplicatePoints (the Deduplicator) with tolerance t: for
every non-empty input sequence, the first point is always kept, and each
subsequent point is kept exactly when its Euclidean distance to the most
recently kept point is strictly greater than t (so consecutive output
points are always farther apart than t, and the output is an in-order
subsequence of the input); the output length never exceeds the input
length, and empty or single-point inputs pass through unchanged. -/
theorem dedup_spec (tol : K) (points : List (Point K)) :
    (removeDuplicatePoints points tol).Sublist points ∧
    (removeDuplicatePoints points tol).length ≤ points.length ∧
    removeDuplicatePoints ([] : List (Point K)) tol = [] ∧
    (∀ p : Point K, removeDuplicatePoints [p] tol = [p]) ∧
    (∀ (p : Point K) (rest : List (Point K)),
      (removeDuplicatePoints (p :: rest) tol).head? = some p) ∧
    (∀ (prev c : Point K) (rest : List (Point K)),
      dedupAux tol prev (c :: rest) =
        if sqrtGt (distSq prev c) tol then c :: dedupAux tol c rest
        else dedupAux tol prev rest) ∧
    List.Chain' (fun a b => sqrtGt (distSq a b) tol)
      (removeDuplicatePoints points tol) := by
  refine ⟨removeDuplicatePoints_sublist points tol,
    removeDuplicatePoints_length_le points tol, rfl, ?_, ?_, ?_, ?_⟩
  · intro p
    simp [removeDuplicatePoints, dedupAux]
  · intro p rest
    simp [removeDuplicatePoints]
  · intro prev c rest
    simp [dedupAux]
  · exact removeDuplicatePoints_chain points tol

/-!
## C7 — `lineIntersection` characterization
-/

/-- C7. lineIntersection(p1,p2,p3,p4): returns no intersection exactly
when |denom| < 1e-10 (near-parallel) or the parameter u of segment
p3–p4 falls outside [0,1]; otherwise it returns the computed
intersection point p1 + t·(p2−p1), with no bound applied to the first
line's parameter t. -/
theorem lineIntersection_spec (p1 p2 p3 p4 : Point K) :
    (lineIntersection p1 p2 p3 p4 = none ↔
      |(p1.1 - p2.1) * (p3.2 - p4.2) - (p1.2 - p2.2) * (p3.1 - p4.1)| <
          1 / 10000000000 ∨
        ¬(0 ≤ -((p1.1 - p2.1) * (p1.2 - p3.2) - (p1.2 - p2.2) * (p1.1 - p3.1)) /
              ((p1.1 - p2.1) * (p3.2 - p4.2) - (p1.2 - p2.2) * (p3.1 - p4.1)) ∧
          -((p1.1 - p2.1) * (p1.2 - p3.2) - (p1.2 - p2.2) * (p1.1 - p3.1)) /
              ((p1.1 - p2.1) * (p3.2 - p4.2) - (p1.2 - p2.2) * (p3.1 - p4.1)) ≤ 1)) ∧
    (1 / 10000000000 ≤
        |(p1.1 - p2.1) * (p3.2 - p4.2) - (p1.2 - p2.2) * (p3.1 - p4.1)| →
      0 ≤ -((p1.1 - p2.1) * (p1.2 - p3.2) - (p1.2 - p2.2) * (p1.1 - p3.1)) /
          ((p1.1 - p2.1) * (p3.2 - p4.2) - (p1.2 - p2.2) * (p3.1 - p4.1)) →
      -((p1.1 - p2.1) * (p1.2 - p3.2) - (p1.2 - p2.2) * (p1.1 - p3.1)) /
          ((p1.1 - p2.1) * (p3.2 - p4.2) - (p1.2 - p2.2) * (p3.1 - p4.1)) ≤ 1 →
      lineIntersection p1 p2 p3 p4 =
        some (p1.1 +
            ((p1.1 - p3.1) * (p3.2 - p4.2) - (p1.2 - p3.2) * (p3.1 - p4.1)) /
                ((p1.1 - p2.1) * (p3.2 - p4.2) - (p1.2 - p2.2) * (p3.1 - p4.1)) *
              (p2.1 - p1.1),
          p1.2 +
            ((p1.1 - p3.1) * (p3.2 - p4.2) - (p1.2 - p3.2) * (p3.1 - p4.1)) /
                ((p1.1 - p2.1) * (p3.2 - p4.2) - (p1.2 - p2.2) * (p3.1 - p4.1)) *
              (p2.2 - p1.2))) := by
  unfold lineIntersection
  dsimp only
  constructor
  · constructor
    · intro h
      by_cases hd : |(p1.1 - p2.1) * (p3.2 - p4.2) - (p1.2 - p2.2) * (p3.1 - p4.1)| <
          1 / 10000000000
      · exact Or.inl hd
      · rw [if_neg hd] at h
        refine Or.inr ?_
        intro hu
        rw [if_pos hu] at h
        exact Option.noConfusion h
    · rintro (hd | hu)
      · rw [if_pos hd]
      · by_cases hd' : |(p1.1 - p2.1) * (p3.2 - p4.2) - (p1.2 - p2.2) * (p3.1 - p4.1)| <
            1 / 10000000000
        · rw [if_pos hd']
        · rw [if_neg hd', if_neg hu]
  · intro hd hu0 hu1
    rw [if_neg (not_lt.mpr hd), if_pos ⟨hu0, hu1⟩]

/-- Witness for `lineIntersection_spec` at a concrete rational input. -/
theorem lineIntersection_spec_witness :
    lineIntersection ((0 : ℚ), 0) (2, 0) (1, -1) (1, 1) = some (1, 0) := by
  have h := (lineIntersection_spec ((0 : ℚ), 0) (2, 0) (1, -1) (1, 1)).2
    (by norm_num) (by norm_num) (by norm_num)
  rw [h]
  norm_num

/-!
## The max-distance scan: characterization

`farthestAux` implements `if (distance > maxDistance)` — a strict
comparison, so the earliest index attaining the maximum is kept and
never displaced by a later equal value.
-/

theorem farthestAux_spec (f : ℕ → K) (l : List ℕ) (acc : K × ℕ)
    (hacc : ∀ i ∈ l, acc.2 < i) (hsort : l.Pairwise (· < ·)) :
    acc.1 ≤ (farthestAux f l acc).1 ∧
    (∀ i ∈ l, f i ≤ (farthestAux f l acc).1) ∧
    (farthestAux f l acc = acc ∨
      ((farthestAux f l acc).2 ∈ l ∧
        (farthestAux f l acc).1 = f (farthestAux f l acc).2 ∧
        acc.1 < (farthestAux f l acc).1)) ∧
    (∀ j ∈ l, j < (farthestAux f l acc).2 → f j < (farthestAux f l acc).1) := by
  induction l generalizing acc with
  | nil => simp [farthestAux]
  | cons x xs ih =>
    have hstep : farthestAux f (x :: xs) acc =
        farthestAux f xs (if acc.1 < f x then (f x, x) else acc) := by
      simp [farthestAux]
    rcases List.pairwise_cons.mp hsort with ⟨hxlt, hsort'⟩
    set acc' : K × ℕ := if acc.1 < f x then (f x, x) else acc with hacc'
    have hacc'2 : ∀ i ∈ xs, acc'.2 < i := by
      intro i hi
      by_cases hup : acc.1 < f x
      · simp only [hacc', if_pos hup]
        exact hxlt i hi
      · simp only [hacc', if_neg hup]
        exact hacc i (List.mem_cons_of_mem x hi)
    obtain ⟨ih1, ih2, ih3, ih4⟩ := ih acc' hacc'2 hsort'
    have hle1 : acc.1 ≤ acc'.1 := by
      by_cases hup : acc.1 < f x
      · simp only [hacc', if_pos hup]
        exact le_of_lt hup
      · simp [hacc', if_neg hup]
    have hlex : f x ≤ acc'.1 := by
      by_cases hup : acc.1 < f x
      · simp [hacc', if_pos hup]
      · simp only [hacc', if_neg hup]
        exact le_of_not_lt hup
    rw [hstep]
    refine ⟨le_trans hle1 ih1, ?_, ?_, ?_⟩
    · intro i hi
      rcases List.mem_cons.mp hi with rfl | hi'
      · exact le_trans hlex ih1
      · exact ih2 i hi'
    · rcases ih3 with heq | ⟨hmem, hval, hlt⟩
      · rw [heq]
        by_cases hup : acc.1 < f x
        · refine Or.inr ?_
          simp only [hacc', if_pos hup]
          exact ⟨List.mem_cons_self x xs, by trivial, hup⟩
        · refine Or.inl ?_
          simp [hacc', if_neg hup]
      · exact Or.inr ⟨List.mem_cons_of_mem x hmem, hval, lt_of_le_of_lt hle1 hlt⟩
    · intro j hj hjlt
      rcases List.mem_cons.mp hj with rfl | hj'
      · rcases ih3 with heq | ⟨_, _, hlt⟩
        · exfalso
          rw [heq] at hjlt
          by_cases hup : acc.1 < f j
          · simp only [hacc', if_pos hup] at hjlt
            exact lt_irrefl j hjlt
          · simp only [hacc', if_neg hup] at hjlt
            exact absurd hjlt (not_lt.mpr (le_of_lt (hacc j (List.mem_cons_self j xs))))
        · exact lt_of_le_of_lt hlex hlt
      · exact ih4 j hj' hjlt

/-- The distance function scanned by `farthestOf`. -/
def chordDistSq (points : List (Point K)) (i : ℕ) : K :=
  pointToLineDistanceSq (points.getD i (0, 0)) (points.getD 0 (0, 0))
    (points.getD (points.length - 1) (0, 0))

theorem farthestOf_spec (points : List (Point K)) (h3 : 3 ≤ points.length) :
    0 ≤ (farthestOf points).1 ∧
    (∀ i, 1 ≤ i → i + 2 ≤ points.length →
      chordDistSq points i ≤ (farthestOf points).1) ∧
    (farthestOf points = (0, 0) ∨
      (1 ≤ (farthestOf points).2 ∧ (farthestOf points).2 + 2 ≤ points.length ∧
        (farthestOf points).1 = chordDistSq points (farthestOf points).2)) ∧
    (∀ j, 1 ≤ j → j + 2 ≤ points.length → j < (farthestOf points).2 →
      chordDistSq points j < (farthestOf points).1) := by
  have hmem : ∀ i : ℕ, i ∈ List.range' 1 (points.length - 2) ↔
      1 ≤ i ∧ i + 2 ≤ points.length := by
    intro i
    rw [List.mem_range'_1]
    omega
  have hspec := farthestAux_spec (chordDistSq points)
    (List.range' 1 (points.length - 2)) (0, 0)
    (fun i hi => by
      have := (hmem i).mp hi
      omega)
    (List.pairwise_lt_range' 1 (points.length - 2))
  have hfar : farthestOf points =
      farthestAux (chordDistSq points) (List.range' 1 (points.length - 2)) (0, 0) := by
    rfl
  obtain ⟨h1, h2, h3', h4⟩ := hspec
  rw [← hfar] at h1 h2 h3' h4
  refine ⟨h1, ?_, ?_, ?_⟩
  · intro i hi1 hi2
    exact h2 i ((hmem i).mpr ⟨hi1, hi2⟩)
  · rcases h3' with heq | ⟨hm, hv, _⟩
    · exact Or.inl heq
    · rcases (hmem _).mp hm with ⟨ha, hb⟩
      exact Or.inr ⟨ha, hb, hv⟩
  · intro j hj1 hj2 hjlt
    exact h4 j ((hmem j).mpr ⟨hj1, hj2⟩) hjlt

/-!
## Douglas–Peucker: branch equations and structural lemmas
-/

theorem douglasPeucker_of_le_two (points : List (Point K)) (tol : K)
    (h : points.length ≤ 2) : douglasPeucker points tol = points := by
  unfold douglasPeucker
  rw [if_pos h]

theorem douglasPeucker_split (points : List (Point K)) (tol : K)
    (h : ¬points.length ≤ 2) (hgt : sqrtGt (farthestOf points).1 tol)
    (h2 : 1 ≤ (farthestOf points).2 ∧ (farthestOf points).2 + 2 ≤ points.length) :
    douglasPeucker points tol =
      (douglasPeucker (points.take ((farthestOf points).2 + 1)) tol).dropLast ++
        douglasPeucker (points.drop (farthestOf points).2) tol := by
  conv_lhs => unfold douglasPeucker
  rw [if_neg h, if_pos hgt, dif_pos h2]

theorem douglasPeucker_collapse (points : List (Point K)) (tol : K)
    (h : ¬points.length ≤ 2) (hngt : ¬sqrtGt (farthestOf points).1 tol) :
    douglasPeucker points tol =
      [points.getD 0 (0, 0), points.getD (points.length - 1) (0, 0)] := by
  conv_lhs => unfold douglasPeucker
  rw [if_neg h, if_neg hngt]

theorem douglasPeucker_stub (points : List (Point K)) (tol : K)
    (h : ¬points.length ≤ 2) (hgt : sqrtGt (farthestOf points).1 tol)
    (h2 : ¬(1 ≤ (farthestOf points).2 ∧ (farthestOf points).2 + 2 ≤ points.length)) :
    douglasPeucker points tol =
      [points.getD 0 (0, 0), points.getD (points.length - 1) (0, 0)] := by
  conv_lhs => unfold douglasPeucker
  rw [if_neg h, if_pos hgt, dif_neg h2]

/-- For a nonnegative tolerance, the guard `h2` of `douglasPeucker`
always holds in the recursive branch: the scan updated at least once,
so its index lies among the interior indices. -/
theorem farthestOf_bounds_of_sqrtGt (points : List (Point K)) (tol : K)
    (h : ¬points.length ≤ 2) (htol : 0 ≤ tol)
    (hgt : sqrtGt (farthestOf points).1 tol) :
    1 ≤ (farthestOf points).2 ∧ (farthestOf points).2 + 2 ≤ points.length := by
  obtain ⟨_, _, h3', _⟩ := farthestOf_spec points (by omega)
  rcases h3' with heq | ⟨ha, hb, _⟩
  · exfalso
    rw [heq] at hgt
    rcases hgt with hlt | hlt
    · exact absurd hlt (not_lt.mpr htol)
    · exact absurd hlt (not_lt.mpr (mul_self_nonneg tol))
  · exact ⟨ha, hb⟩

theorem douglasPeucker_length_le (points : List (Point K)) (tol : K) :
    (douglasPeucker points tol).length ≤ points.length := by
  induction points, tol using douglasPeucker.induct with
  | case1 points tol h =>
    rw [douglasPeucker_of_le_two points tol h]
  | case2 points tol h hgt h2 ihl ihr =>
    rw [douglasPeucker_split points tol h hgt h2]
    rw [List.length_append, List.length_dropLast]
    have hlt : (List.take ((farthestOf points).2 + 1) points).length =
        (farthestOf points).2 + 1 := by
      rw [List.length_take]
      omega
    have hld : (List.drop (farthestOf points).2 points).length =
        points.length - (farthestOf points).2 := List.length_drop _ _
    omega
  | case3 points tol h hgt h2 =>
    rw [douglasPeucker_stub points tol h hgt h2]
    simp only [List.length_cons, List.length_nil]
    omega
  | case4 points tol h hngt =>
    rw [douglasPeucker_collapse points tol h hngt]
    simp only [List.length_cons, List.length_nil]
    omega

theorem two_le_douglasPeucker_length (points : List (Point K)) (tol : K)
    (hlen : 2 ≤ points.length) : 2 ≤ (douglasPeucker points tol).length := by
  induction points, tol using douglasPeucker.induct with
  | case1 points tol h =>
    rw [douglasPeucker_of_le_two points tol h]
    exact hlen
  | case2 points tol h hgt h2 ihl ihr =>
    rw [douglasPeucker_split points tol h hgt h2]
    rw [List.length_append]
    have hr : 2 ≤ (douglasPeucker (points.drop (farthestOf points).2) tol).length := by
      refine ihr ?_
      rw [List.length_drop]
      omega
    omega
  | case3 points tol h hgt h2 =>
    rw [douglasPeucker_stub points tol h hgt h2]
    simp
  | case4 points tol h hngt =>
    rw [douglasPeucker_collapse points tol h hngt]
    simp

theorem douglasPeucker_head? (points : List (Point K)) (tol : K) :
    (douglasPeucker points tol).head? = points.head? := by
  induction points, tol using douglasPeucker.induct with
  | case1 points tol h =>
    rw [douglasPeucker_of_le_two points tol h]
  | case2 points tol h hgt h2 ihl ihr =>
    rw [douglasPeucker_split points tol h hgt h2]
    rw [List.head?_append]
    have hlt : (List.take ((farthestOf points).2 + 1) points).length =
        (farthestOf points).2 + 1 := by
      rw [List.length_take]
      omega
    have h2l : 2 ≤ (douglasPeucker (points.take ((farthestOf points).2 + 1)) tol).length :=
      two_le_douglasPeucker_length _ _ (by omega)
    rw [List.head?_dropLast, if_pos (by omega), ihl, List.head?_take,
      if_neg (by omega)]
    cases hp : points.head? with
    | none =>
      rw [List.head?_eq_none_iff] at hp
      subst hp
      simp at h
    | some a => rfl
  | case3 points tol h hgt h2 =>
    rw [douglasPeucker_stub points tol h hgt h2]
    cases points with
    | nil => simp at h
    | cons a rest => rfl
  | case4 points tol h hngt =>
    rw [douglasPeucker_collapse points tol h hngt]
    cases points with
    | nil => simp at h
    | cons a rest => rfl

theorem getLast?_eq_getD {A : Type*} (l : List A) (d : A) (h : l ≠ []) :
    l.getLast? = some (l.getD (l.length - 1) d) := by
  have hpos : 0 < l.length := List.length_pos.mpr h
  rw [List.getLast?_eq_getElem?, List.getElem?_eq_getElem (by omega),
    List.getD_eq_getElem?_getD, List.getElem?_eq_getElem (by omega)]
  rfl

theorem douglasPeucker_getLast? (points : List (Point K)) (tol : K) :
    (douglasPeucker points tol).getLast? = points.getLast? := by
  induction points, tol using douglasPeucker.induct with
  | case1 points tol h =>
    rw [douglasPeucker_of_le_two points tol h]
  | case2 points tol h hgt h2 ihl ihr =>
    rw [douglasPeucker_split points tol h hgt h2]
    rw [List.getLast?_append]
    have hld : (List.drop (farthestOf points).2 points).length =
        points.length - (farthestOf points).2 := List.length_drop _ _
    have h2r : 2 ≤ (douglasPeucker (points.drop (farthestOf points).2) tol).length :=
      two_le_douglasPeucker_length _ _ (by omega)
    rw [ihr, List.getLast?_drop, if_neg (by omega)]
    cases hp : points.getLast? with
    | none =>
      rw [List.getLast?_eq_none_iff] at hp
      subst hp
      simp at h
    | some a => rfl
  | case3 points tol h hgt h2 =>
    rw [douglasPeucker_stub points tol h hgt h2]
    have hne : points ≠ [] := by
      intro hnil
      rw [hnil] at h
      simp at h
    conv_rhs => rw [getLast?_eq_getD points (0, 0) hne]
    simp
  | case4 points tol h hngt =>
    rw [douglasPeucker_collapse points tol h hngt]
    have hne : points ≠ [] := by
      intro hnil
      rw [hnil] at h
      simp at h
    conv_rhs => rw [getLast?_eq_getD points (0, 0) hne]
    simp

/-- C2. douglasPeucker with tolerance t: length ≤ 2 inputs are returned
unchanged; otherwise the scan maximizes the clamped squared
point-to-segment distance from the chord (first, last) over the interior
indices, ties broken toward the earliest index (strict comparison: every
earlier index has strictly smaller distance than the winner); when the
maximum exceeds t (`sqrtGt`, with t ≥ 0) the two halves split at that
index are simplified recursively and concatenated dropping the
duplicated junction point once, and otherwise exactly the two endpoints
are returned.  Consequently, every input of length ≥ 2 yields an output
with at least 2 and at most the input's number of points, preserving the
exact first and last points. -/
theorem douglasPeucker_spec (tol : K) (points : List (Point K)) :
    (points.length ≤ 2 → douglasPeucker points tol = points) ∧
    (3 ≤ points.length →
      (∀ i, 1 ≤ i → i + 2 ≤ points.length →
        chordDistSq points i ≤ (farthestOf points).1) ∧
      (farthestOf points = (0, 0) ∨
        (1 ≤ (farthestOf points).2 ∧ (farthestOf points).2 + 2 ≤ points.length ∧
          (farthestOf points).1 = chordDistSq points (farthestOf points).2)) ∧
      (∀ j, 1 ≤ j → j + 2 ≤ points.length → j < (farthestOf points).2 →
        chordDistSq points j < (farthestOf points).1)) ∧
    (¬points.length ≤ 2 → 0 ≤ tol → sqrtGt (farthestOf points).1 tol →
      douglasPeucker points tol =
        (douglasPeucker (points.take ((farthestOf points).2 + 1)) tol).dropLast ++
          douglasPeucker (points.drop (farthestOf points).2) tol) ∧
    (¬points.length ≤ 2 → ¬sqrtGt (farthestOf points).1 tol →
      douglasPeucker points tol =
        [points.getD 0 (0, 0), points.getD (points.length - 1) (0, 0)]) ∧
    (2 ≤ points.length →
      2 ≤ (douglasPeucker points tol).length ∧
      (douglasPeucker points tol).length ≤ points.length ∧
      (douglasPeucker points tol).head? = points.head? ∧
      (douglasPeucker points tol).getLast? = points.getLast?) := by
  refine ⟨douglasPeucker_of_le_two points tol, ?_, ?_, ?_, ?_⟩
  · intro h3
    obtain ⟨_, h2, h3', h4⟩ := farthestOf_spec points h3
    exact ⟨h2, h3', h4⟩
  · intro h htol hgt
    exact douglasPeucker_split points tol h hgt
      (farthestOf_bounds_of_sqrtGt points tol h htol hgt)
  · exact douglasPeucker_collapse points tol
  · intro h2
    exact ⟨two_le_douglasPeucker_length points tol h2,
      douglasPeucker_length_le points tol,
      douglasPeucker_head? points tol,
      douglasPeucker_getLast? points tol⟩

/-- Witness for `douglasPeucker_spec` at concrete rational inputs:
a length-2 input passes through, and a triangle keeps ≥ 2 points with
its endpoints preserved. -/
theorem douglasPeucker_spec_witness :
    douglasPeucker [((0 : ℚ), 0), (1, 1)] (1 / 1000) = [((0 : ℚ), 0), (1, 1)] ∧
    2 ≤ (douglasPeucker [((0 : ℚ), 0), (1, 1), (2, 0)] (1 / 1000)).length ∧
    (douglasPeucker [((0 : ℚ), 0), (1, 1), (2, 0)] (1 / 1000)).head? =
      some ((0 : ℚ), 0) :=
  ⟨(douglasPeucker_spec (1 / 1000) [((0 : ℚ), 0), (1, 1)]).1 (by decide),
    ((douglasPeucker_spec (1 / 1000) [((0 : ℚ), 0), (1, 1), (2, 0)]).2.2.2.2
      (by decide)).1,
    by
      have h := ((douglasPeucker_spec (1 / 1000)
        [((0 : ℚ), 0), (1, 1), (2, 0)]).2.2.2.2 (by decide)).2.2.1
      rw [h]
      rfl⟩

/-!
## CollinearityFilter: index characterization
-/

/-- The interior scan of `removeCollinearPoints` in index form: the kept
interior points are exactly those `points[i]`, `1 ≤ i ≤ n-2`, whose
cross-product magnitude against the neighbours `points[i-1]`,
`points[i+1]` exceeds the tolerance. -/
theorem keepNonCollinear_eq_filterMap (tol : K) (l : List (Point K)) :
    keepNonCollinear tol l =
      (List.range' 1 (l.length - 2)).filterMap (fun i =>
        if tol < crossAbs (l.getD (i - 1) (0, 0)) (l.getD i (0, 0))
            (l.getD (i + 1) (0, 0))
        then some (l.getD i (0, 0)) else none) := by
  induction l with
  | nil => simp [keepNonCollinear]
  | cons a tail ih =>
    match tail with
    | [] => simp [keepNonCollinear]
    | [b] => simp [keepNonCollinear]
    | b :: c :: rest =>
      have hlen : (a :: b :: c :: rest).length - 2 = (rest.length + 1) := by
        simp
      rw [hlen]
      have hrange : List.range' 1 (rest.length + 1) =
          1 :: List.range' 2 rest.length := by
        rw [List.range'_succ]
      rw [hrange, List.filterMap_cons]
      have htail : keepNonCollinear tol (b :: c :: rest) =
          (List.range' 1 ((b :: c :: rest).length - 2)).filterMap (fun i =>
            if tol < crossAbs ((b :: c :: rest).getD (i - 1) (0, 0))
                ((b :: c :: rest).getD i (0, 0))
                ((b :: c :: rest).getD (i + 1) (0, 0))
            then some ((b :: c :: rest).getD i (0, 0)) else none) := ih
      have hlen2 : (b :: c :: rest).length - 2 = rest.length := by
        simp
      rw [hlen2] at htail
      have hshift :
          (List.range' 2 rest.length).filterMap (fun i =>
            if tol < crossAbs ((a :: b :: c :: rest).getD (i - 1) (0, 0))
                ((a :: b :: c :: rest).getD i (0, 0))
                ((a :: b :: c :: rest).getD (i + 1) (0, 0))
            then some ((a :: b :: c :: rest).getD i (0, 0)) else none) =
          (List.range' 1 rest.length).filterMap (fun i =>
            if tol < crossAbs ((b :: c :: rest).getD (i - 1) (0, 0))
                ((b :: c :: rest).getD i (0, 0))
                ((b :: c :: rest).getD (i + 1) (0, 0))
            then some ((b :: c :: rest).getD i (0, 0)) else none) := by
        rw [List.range'_eq_map_range 2 rest.length,
          List.range'_eq_map_range 1 rest.length,
          List.filterMap_map, List.filterMap_map]
        refine List.filterMap_congr ?_
        intro j _
        have e1 : (2 + j) - 1 = 1 + j := by omega
        have e2 : (1 + j) - 1 = j := by omega
        simp only [Function.comp_apply, e1, e2]
        have g1 : (a :: b :: c :: rest).getD (1 + j) (0, 0) =
            (b :: c :: rest).getD j (0, 0) := by
          rw [Nat.add_comm 1 j]
          rfl
        have g2 : (a :: b :: c :: rest).getD (2 + j) (0, 0) =
            (b :: c :: rest).getD (1 + j) (0, 0) := by
          rw [show 2 + j = (1 + j) + 1 by omega, Nat.add_comm 1 j]
          rfl
        have g3 : (a :: b :: c :: rest).getD (2 + j + 1) (0, 0) =
            (b :: c :: rest).getD (1 + j + 1) (0, 0) := by
          rw [show 2 + j + 1 = (1 + j + 1) + 1 by omega,
            show 1 + j + 1 = (j + 1) + 1 by omega]
          rfl
        rw [g1, g2, g3]
      show keepNonCollinear tol (a :: b :: c :: rest) = _
      rw [keepNonCollinear]
      by_cases hk : tol < crossAbs a b c
      · rw [if_pos hk]
        have hf1 : (a :: b :: c :: rest).getD (1 - 1) (0, 0) = a := rfl
        have hf2 : (a :: b :: c :: rest).getD 1 (0, 0) = b := rfl
        have hf3 : (a :: b :: c :: rest).getD (1 + 1) (0, 0) = c := rfl
        rw [hf1, hf2, hf3] at *
        rw [if_pos hk]
        rw [htail, ← hshift]
      · rw [if_neg hk]
        have hf1 : (a :: b :: c :: rest).getD (1 - 1) (0, 0) = a := rfl
        have hf2 : (a :: b :: c :: rest).getD 1 (0, 0) = b := rfl
        have hf3 : (a :: b :: c :: rest).getD (1 + 1) (0, 0) = c := rfl
        rw [hf1, hf2, hf3]
        rw [if_neg hk]
        rw [htail, ← hshift]

/-- The interior scan keeps only interior points: it yields a
subsequence of the input with its first and last points removed. -/
theorem keepNonCollinear_sublist_dropLast (tol : K) (x : Point K)
    (xs : List (Point K)) :
    (keepNonCollinear tol (x :: xs)).Sublist xs.dropLast := by
  induction xs generalizing x with
  | nil => simp [keepNonCollinear]
  | cons b tail ih =>
    match tail with
    | [] => simp [keepNonCollinear]
    | c :: rest =>
      have hd : (b :: c :: rest).dropLast = b :: (c :: rest).dropLast := by
        rfl
      rw [hd, keepNonCollinear]
      by_cases hk : tol < crossAbs x b c
      · rw [if_pos hk]
        exact List.Sublist.cons₂ b (ih b)
      · rw [if_neg hk]
        exact List.Sublist.cons b (ih b)

theorem removeCollinearPoints_sublist (points : List (Point K)) (tol : K) :
    (removeCollinearPoints points tol).Sublist points := by
  by_cases h : points.length ≤ 2
  · rw [removeCollinearPoints, if_pos h]
  · rw [removeCollinearPoints, if_neg h]
    match points with
    | [] => simp at h
    | a :: xs =>
      have hxs : xs ≠ [] := by
        intro hnil
        rw [hnil] at h
        simp at h
      have hlen : (a :: xs).length - 1 = xs.length := by simp
      rw [hlen, List.drop_length_cons hxs]
      have hkeep : (keepNonCollinear tol (a :: xs)).Sublist xs.dropLast :=
        keepNonCollinear_sublist_dropLast tol a xs
      have hsplit : xs.dropLast ++ [xs.getLast hxs] = xs :=
        List.dropLast_append_getLast hxs
      have hstep : (keepNonCollinear tol (a :: xs) ++ [xs.getLast hxs]).Sublist xs := by
        conv_rhs => rw [← hsplit]
        exact List.Sublist.append hkeep (List.Sublist.refl _)
      have htake : List.take 1 (a :: xs) = [a] := rfl
      rw [htake]
      have hassoc : ([a] ++ keepNonCollinear tol (a :: xs) ++ [xs.getLast hxs]) =
          a :: (keepNonCollinear tol (a :: xs) ++ [xs.getLast hxs]) := by
        simp
      rw [hassoc]
      exact List.Sublist.cons₂ a hstep

/-- C4. removeCollinearPoints (the CollinearityFilter) with tolerance t:
inputs of length ≤ 2 are returned unchanged; otherwise the first and
last points are kept unconditionally and each interior point `points[i]`
(1 ≤ i ≤ n-2) is kept exactly when the absolute cross product of
`(curr - prev)` and `(next - prev)` exceeds t (dropped when ≤ t), with
neighbours taken from the original sequence; the wrap-around edge
between last and first point is never evaluated (the characterization
ranges only over interior indices), and the output is an in-order
subsequence of the input. -/
theorem removeCollinear_spec (tol : K) (points : List (Point K)) :
    (points.length ≤ 2 → removeCollinearPoints points tol = points) ∧
    (3 ≤ points.length →
      removeCollinearPoints points tol =
        points.take 1 ++
          (List.range' 1 (points.length - 2)).filterMap (fun i =>
            if tol < crossAbs (points.getD (i - 1) (0, 0)) (points.getD i (0, 0))
                (points.getD (i + 1) (0, 0))
            then some (points.getD i (0, 0)) else none) ++
          points.drop (points.length - 1)) ∧
    (removeCollinearPoints points tol).Sublist points ∧
    (3 ≤ points.length →
      (removeCollinearPoints points tol).head? = points.head? ∧
      (removeCollinearPoints points tol).getLast? = points.getLast?) := by
  refine ⟨?_, ?_, removeCollinearPoints_sublist points tol, ?_⟩
  · intro h
    rw [removeCollinearPoints, if_pos h]
  · intro h3
    rw [removeCollinearPoints, if_neg (by omega), keepNonCollinear_eq_filterMap]
  · intro h3
    have hne : points ≠ [] := by
      intro hnil
      rw [hnil] at h3
      simp at h3
    rw [removeCollinearPoints, if_neg (by omega)]
    constructor
    · rw [List.head?_append, List.head?_append]
      match points with
      | a :: xs => rfl
    · rw [List.getLast?_append]
      have hlast : (points.drop (points.length - 1)).getLast? = points.getLast? := by
        rw [List.getLast?_drop, if_neg (by omega)]
      rw [hlast]
      cases hp : points.getLast? with
      | none =>
        rw [List.getLast?_eq_none_iff] at hp
        exact absurd hp hne
      | some a => rfl

/-- Witness for `removeCollinear_spec`: a concrete rational input with
one collinear interior point (dropped) and one non-collinear interior
point (kept). -/
theorem removeCollinear_spec_witness :
    removeCollinearPoints [((0 : ℚ), 0), (1, 0), (2, 0), (2, 2)] (1 / 1000) =
      [((0 : ℚ), 0), (2, 0), (2, 2)] := by
  have h := (removeCollinear_spec (1 / 1000)
    [((0 : ℚ), 0), (1, 0), (2, 0), (2, 2)]).2.1 (by decide)
  rw [h]
  norm_num [List.range', crossAbs, List.filterMap_cons]

/-!
## ShapeNormalizer: bounding-box lemmas and the C5 claim
-/

theorem min_affine (a b c s : K) (hs : 0 ≤ s) :
    min ((a - c) * s) ((b - c) * s) = (min a b - c) * s := by
  rcases le_total a b with h | h
  · rw [min_eq_left h, min_eq_left (by nlinarith)]
  · rw [min_eq_right h, min_eq_right (by nlinarith)]

theorem max_affine (a b c s : K) (hs : 0 ≤ s) :
    max ((a - c) * s) ((b - c) * s) = (max a b - c) * s := by
  rcases le_total a b with h | h
  · rw [max_eq_right h, max_eq_right (by nlinarith)]
  · rw [max_eq_left h, max_eq_left (by nlinarith)]

theorem foldl_expandBox_mono (l : List (Point K)) (b : Point K × Point K) :
    (l.foldl expandBox b).1.1 ≤ b.1.1 ∧ (l.foldl expandBox b).1.2 ≤ b.1.2 ∧
    b.2.1 ≤ (l.foldl expandBox b).2.1 ∧ b.2.2 ≤ (l.foldl expandBox b).2.2 := by
  induction l generalizing b with
  | nil => exact ⟨le_refl _, le_refl _, le_refl _, le_refl _⟩
  | cons q rest ih =>
    rw [List.foldl_cons]
    obtain ⟨i1, i2, i3, i4⟩ := ih (expandBox b q)
    exact ⟨le_trans i1 (min_le_left _ _), le_trans i2 (min_le_left _ _),
      le_trans (le_max_left _ _) i3, le_trans (le_max_left _ _) i4⟩

theorem foldl_expandBox_lo_le_hi (l : List (Point K)) (b : Point K × Point K)
    (hb1 : b.1.1 ≤ b.2.1) (hb2 : b.1.2 ≤ b.2.2) :
    (l.foldl expandBox b).1.1 ≤ (l.foldl expandBox b).2.1 ∧
    (l.foldl expandBox b).1.2 ≤ (l.foldl expandBox b).2.2 := by
  induction l generalizing b with
  | nil => exact ⟨hb1, hb2⟩
  | cons q rest ih =>
    rw [List.foldl_cons]
    refine ih (expandBox b q) ?_ ?_
    · exact le_trans (min_le_left _ _) (le_trans hb1 (le_max_left _ _))
    · exact le_trans (min_le_left _ _) (le_trans hb2 (le_max_left _ _))

theorem foldl_expandBox_bounds (l : List (Point K)) (b : Point K × Point K) :
    ∀ q ∈ l, (l.foldl expandBox b).1.1 ≤ q.1 ∧ q.1 ≤ (l.foldl expandBox b).2.1 ∧
      (l.foldl expandBox b).1.2 ≤ q.2 ∧ q.2 ≤ (l.foldl expandBox b).2.2 := by
  induction l generalizing b with
  | nil => intro q hq; exact absurd hq (by simp)
  | cons x rest ih =>
    intro q hq
    rw [List.foldl_cons]
    rcases List.mem_cons.mp hq with rfl | hq'
    · obtain ⟨i1, i2, i3, i4⟩ := foldl_expandBox_mono rest (expandBox b q)
      exact ⟨le_trans i1 (min_le_right _ _), le_trans (le_max_right _ _) i3,
        le_trans i2 (min_le_right _ _), le_trans (le_max_right _ _) i4⟩
    · exact ih (expandBox b x) q hq'

/-- Folding the box expansion over affinely mapped points produces the
affine image of the box (for a nonnegative scale). -/
theorem foldl_expandBox_map (l : List (Point K)) (b : Point K × Point K)
    (c1 c2 s : K) (hs : 0 ≤ s) :
    ((l.map (fun q => ((q.1 - c1) * s, (q.2 - c2) * s))).foldl expandBox
        (((b.1.1 - c1) * s, (b.1.2 - c2) * s), ((b.2.1 - c1) * s, (b.2.2 - c2) * s))) =
      ((((l.foldl expandBox b).1.1 - c1) * s, ((l.foldl expandBox b).1.2 - c2) * s),
        (((l.foldl expandBox b).2.1 - c1) * s, ((l.foldl expandBox b).2.2 - c2) * s)) := by
  induction l generalizing b with
  | nil => rfl
  | cons q rest ih =>
    rw [List.map_cons, List.foldl_cons, List.foldl_cons]
    have hcomm : expandBox
        (((b.1.1 - c1) * s, (b.1.2 - c2) * s), ((b.2.1 - c1) * s, (b.2.2 - c2) * s))
        ((q.1 - c1) * s, (q.2 - c2) * s) =
        ((((expandBox b q).1.1 - c1) * s, ((expandBox b q).1.2 - c2) * s),
          (((expandBox b q).2.1 - c1) * s, ((expandBox b q).2.2 - c2) * s)) := by
      unfold expandBox
      dsimp only
      rw [min_affine _ _ _ _ hs, min_affine _ _ _ _ hs,
        max_affine _ _ _ _ hs, max_affine _ _ _ _ hs]
    rw [hcomm, ih (expandBox b q)]

theorem max_mul_nonneg (a b s : K) (hs : 0 ≤ s) :
    max (a * s) (b * s) = max a b * s := by
  rcases le_total a b with h | h
  · rw [max_eq_right h, max_eq_right (by nlinarith)]
  · rw [max_eq_left h, max_eq_left (by nlinarith)]

theorem bboxMaxDim_nonneg (p : Point K) (rest : List (Point K)) :
    0 ≤ bboxMaxDim p rest := by
  obtain ⟨h1, h2⟩ := foldl_expandBox_lo_le_hi rest ((p, p) : Point K × Point K)
    (le_refl _) (le_refl _)
  have hx : (0 : K) ≤ (bboxOf p rest).2.1 - (bboxOf p rest).1.1 := by
    unfold bboxOf
    linarith
  exact le_trans hx (le_max_left _ _)

/-- `maxDimension == 0` happens exactly when all points coincide. -/
theorem bboxMaxDim_eq_zero_iff (p : Point K) (rest : List (Point K)) :
    bboxMaxDim p rest = 0 ↔ ∀ q ∈ p :: rest, q = p := by
  obtain ⟨hb1, hb2⟩ := foldl_expandBox_lo_le_hi rest ((p, p) : Point K × Point K)
    (le_refl _) (le_refl _)
  obtain ⟨m1, m2, m3, m4⟩ := foldl_expandBox_mono rest ((p, p) : Point K × Point K)
  constructor
  · intro h0 q hq
    have hx : (bboxOf p rest).2.1 - (bboxOf p rest).1.1 ≤ 0 := by
      have hle := le_max_left ((bboxOf p rest).2.1 - (bboxOf p rest).1.1)
        ((bboxOf p rest).2.2 - (bboxOf p rest).1.2)
      unfold bboxMaxDim at h0
      linarith [hle.trans_eq h0]
    have hy : (bboxOf p rest).2.2 - (bboxOf p rest).1.2 ≤ 0 := by
      have hle := le_max_right ((bboxOf p rest).2.1 - (bboxOf p rest).1.1)
        ((bboxOf p rest).2.2 - (bboxOf p rest).1.2)
      unfold bboxMaxDim at h0
      linarith [hle.trans_eq h0]
    unfold bboxOf at hx hy
    rcases List.mem_cons.mp hq with rfl | hq'
    · rfl
    · obtain ⟨q1, q2, q3, q4⟩ := foldl_expandBox_bounds rest ((p, p) : Point K × Point K) q hq'
      have e1 : q.1 = p.1 := by linarith
      have e2 : q.2 = p.2 := by linarith
      exact Prod.ext e1 e2
  · intro hall
    have hbox : rest.foldl expandBox ((p, p) : Point K × Point K) = (p, p) := by
      have hmem : ∀ q ∈ rest, q = p := fun q hq => hall q (List.mem_cons_of_mem p hq)
      clear hall hb1 hb2 m1 m2 m3 m4
      induction rest with
      | nil => rfl
      | cons x tail ih =>
        have hx : x = p := hmem x (List.mem_cons_self x tail)
        rw [List.foldl_cons, hx]
        have hexp : expandBox ((p, p) : Point K × Point K) p = (p, p) := by
          unfold expandBox
          simp
        rw [hexp]
        exact ih (fun q hq => hmem q (List.mem_cons_of_mem x hq))
    unfold bboxMaxDim bboxOf
    rw [hbox]
    simp

/-- The bounding-box maximum dimension scales linearly under the
pointwise affine map of `autoScaleShape` (nonnegative scale). -/
theorem bboxMaxDim_map (p : Point K) (rest : List (Point K)) (c1 c2 s : K)
    (hs : 0 ≤ s) :
    bboxMaxDim ((p.1 - c1) * s, (p.2 - c2) * s)
      (rest.map (fun q => ((q.1 - c1) * s, (q.2 - c2) * s))) =
    bboxMaxDim p rest * s := by
  have hmap := foldl_expandBox_map rest ((p, p) : Point K × Point K) c1 c2 s hs
  dsimp only at hmap
  unfold bboxMaxDim bboxOf
  rw [hmap]
  dsimp only
  have e : ∀ a b c : K, (a - c) * s - (b - c) * s = (a - b) * s := by
    intro a b c
    ring
  rw [e, e, max_mul_nonneg _ _ _ hs]

/-- C5. autoScaleShape: an input whose axis-aligned bounding box has
max(width, height) = 0 — equivalently (for nonempty inputs) one whose
points all coincide, covering the empty and single-point cases — is
returned unchanged; every other input is mapped pointwise to
(p − boxCenter) · (1 / maxDim), and the output's bounding box then
satisfies max(width, height) = 1. -/
theorem autoScale_spec :
    (autoScaleShape ([] : List (Point K)) = []) ∧
    (∀ (p : Point K) (rest : List (Point K)),
      (bboxMaxDim p rest = 0 ↔ ∀ q ∈ p :: rest, q = p)) ∧
    (∀ (p : Point K) (rest : List (Point K)), bboxMaxDim p rest = 0 →
      autoScaleShape (p :: rest) = p :: rest) ∧
    (∀ (p : Point K) (rest : List (Point K)), bboxMaxDim p rest ≠ 0 →
      autoScaleShape (p :: rest) =
        (p :: rest).map (fun q =>
          ((q.1 - ((bboxOf p rest).1.1 + (bboxOf p rest).2.1) / 2) *
              (1 / bboxMaxDim p rest),
            (q.2 - ((bboxOf p rest).1.2 + (bboxOf p rest).2.2) / 2) *
              (1 / bboxMaxDim p rest))) ∧
      bboxMaxDim
        ((p.1 - ((bboxOf p rest).1.1 + (bboxOf p rest).2.1) / 2) *
            (1 / bboxMaxDim p rest),
          (p.2 - ((bboxOf p rest).1.2 + (bboxOf p rest).2.2) / 2) *
            (1 / bboxMaxDim p rest))
        (rest.map (fun q =>
          ((q.1 - ((bboxOf p rest).1.1 + (bboxOf p rest).2.1) / 2) *
              (1 / bboxMaxDim p rest),
            (q.2 - ((bboxOf p rest).1.2 + (bboxOf p rest).2.2) / 2) *
              (1 / bboxMaxDim p rest)))) = 1) := by
  refine ⟨rfl, bboxMaxDim_eq_zero_iff, ?_, ?_⟩
  · intro p rest h0
    simp only [autoScaleShape]
    rw [if_pos h0]
  · intro p rest h0
    have hpos : 0 < bboxMaxDim p rest :=
      lt_of_le_of_ne (bboxMaxDim_nonneg p rest) (Ne.symm h0)
    have hs : 0 ≤ 1 / bboxMaxDim p rest := by positivity
    constructor
    · simp only [autoScaleShape]
      rw [if_neg h0]
    · rw [bboxMaxDim_map p rest _ _ _ hs]
      field_simp

/-- Witness for `autoScale_spec` at concrete rational inputs: a
degenerate two-point input passes through, a non-degenerate one is
scaled and its scaled bounding box has maximum dimension 1. -/
theorem autoScale_spec_witness :
    autoScaleShape [((3 : ℚ), 3), (3, 3)] = [((3 : ℚ), 3), (3, 3)] ∧
    autoScaleShape [((0 : ℚ), 0), (2, 1)] =
      [((0 : ℚ), 0), (2, 1)].map (fun q =>
        ((q.1 - ((bboxOf ((0 : ℚ), 0) [((2 : ℚ), 1)]).1.1 +
            (bboxOf ((0 : ℚ), 0) [((2 : ℚ), 1)]).2.1) / 2) *
            (1 / bboxMaxDim ((0 : ℚ), 0) [((2 : ℚ), 1)]),
          (q.2 - ((bboxOf ((0 : ℚ), 0) [((2 : ℚ), 1)]).1.2 +
            (bboxOf ((0 : ℚ), 0) [((2 : ℚ), 1)]).2.2) / 2) *
            (1 / bboxMaxDim ((0 : ℚ), 0) [((2 : ℚ), 1)]))) := by
  constructor
  · exact (autoScale_spec.2.2.1 ((3 : ℚ), 3) [((3 : ℚ), 3)]
      (by norm_num [bboxMaxDim, bboxOf, expandBox]))
  · exact (autoScale_spec.2.2.2 ((0 : ℚ), 0) [((2 : ℚ), 1)]
      (by norm_num [bboxMaxDim, bboxOf, expandBox])).1

/-!
## Orchestrator claims: dispatch, unknown modes, degenerate inputs
-/

theorem distSq_self (p : Point K) : distSq p p = 0 := by
  unfold distSq
  ring

theorem not_sqrtGt_zero (tol : K) (h : 0 ≤ tol) : ¬sqrtGt 0 tol := by
  rintro (h' | h')
  · linarith
  · nlinarith [mul_self_nonneg tol]

theorem dedupAux_replicate (tol : K) (p : Point K) (k : ℕ) (h : 0 ≤ tol) :
    dedupAux tol p (List.replicate k p) = [] := by
  induction k with
  | zero => rfl
  | succ n ih =>
    rw [List.replicate_succ]
    simp only [dedupAux]
    rw [if_neg]
    · exact ih
    · rw [distSq_self]
      exact not_sqrtGt_zero tol h

theorem normalCleanup_cons_replicate (p : Point K) (k : ℕ) :
    normalCleanup (p :: List.replicate k p) = [p] := by
  have hdedup : removeDuplicatePoints (p :: List.replicate k p) (1 / 10000) = [p] := by
    simp only [removeDuplicatePoints]
    rw [dedupAux_replicate _ _ _ (by norm_num)]
  have hcol : removeCollinearPoints [p] (1 / 1000) = [p] := by
    rw [removeCollinearPoints, if_pos (by simp)]
  simp only [normalCleanup]
  rw [if_neg (by simp), hdedup, hcol,
    douglasPeucker_of_le_two _ _ (by simp)]

theorem normalCleanup_singleton (p : Point K) : normalCleanup [p] = [p] := by
  have := normalCleanup_cons_replicate p 0
  simpa using this

theorem createOuterContour_short (points : List (Point ℝ))
    (h : points.length < 3) : createOuterContourByRaySampling points = points := by
  rw [createOuterContourByRaySampling, if_pos h]

theorem aggressiveCleanup_cons_replicate (p : Point ℝ) (k : ℕ) :
    aggressiveCleanup (p :: List.replicate k p) = [p] := by
  rw [aggressiveCleanup, if_neg (by simp), normalCleanup_cons_replicate,
    createOuterContour_short [p] (by simp), normalCleanup_singleton]

theorem normalCleanup_nil : normalCleanup ([] : List (Point K)) = [] := by
  simp [normalCleanup]

/-- C1. cleanupShape dispatches on the cleanup mode: mode 0 (None)
returns the input unchanged; mode 1 (Normal) returns
douglasPeucker(removeCollinearPoints(removeDuplicatePoints(input, 1e-4),
1e-3), 0.001); mode 2 (Aggressive) runs the Normal pipeline, feeds the
result into the ray-sampling contour extractor, and runs the Normal
pipeline again on the extractor's output. -/
theorem cleanupShape_spec (points : List (Point ℝ)) :
    cleanupShape points 0 = points ∧
    cleanupShape points 1 = normalCleanup points ∧
    normalCleanup points =
      douglasPeucker
        (removeCollinearPoints (removeDuplicatePoints points (1 / 10000)) (1 / 1000))
        (1 / 1000) ∧
    cleanupShape points 2 =
      normalCleanup (createOuterContourByRaySampling (normalCleanup points)) := by
  refine ⟨by simp [cleanupShape], by simp [cleanupShape], ?_, ?_⟩
  · by_cases hp : points.length = 0
    · rw [List.length_eq_zero] at hp
      subst hp
      rw [normalCleanup_nil,
        show removeDuplicatePoints ([] : List (Point ℝ)) (1 / 10000) = [] from rfl,
        show removeCollinearPoints ([] : List (Point ℝ)) (1 / 1000) = [] by
          rw [removeCollinearPoints, if_pos (by simp)],
        douglasPeucker_of_le_two _ _ (by simp)]
    · simp [normalCleanup, hp]
  · have hc : cleanupShape points 2 = aggressiveCleanup points := by
      simp [cleanupShape]
    rw [hc]
    by_cases hp : points.length = 0
    · rw [List.length_eq_zero] at hp
      subst hp
      rw [aggressiveCleanup, if_pos (by simp), normalCleanup_nil,
        createOuterContour_short [] (by simp), normalCleanup_nil]
    · rw [aggressiveCleanup, if_neg hp]

/-- C10. For every input shape and every cleanup-mode value outside
{0, 1, 2}, cleanupShape falls through its dispatch and returns the
input unchanged, exactly as mode None does. -/
theorem cleanupShape_default_spec (points : List (Point ℝ)) (m : ℤ)
    (h0 : m ≠ 0) (h1 : m ≠ 1) (h2 : m ≠ 2) : cleanupShape points m = points := by
  rw [cleanupShape, if_neg h0, if_neg h1, if_neg h2]

/-- Witness for `cleanupShape_default_spec` at mode 5. -/
theorem cleanupShape_default_spec_witness :
    cleanupShape [((0 : ℝ), 0), (1, 2)] 5 = [((0 : ℝ), 0), (1, 2)] :=
  cleanupShape_default_spec [((0 : ℝ), 0), (1, 2)] 5 (by decide) (by decide) (by decide)

/-- C9 counterexample: a point repeated twice is NOT returned unchanged
by cleanupShape under mode Normal — the Deduplicator collapses it to a
single occurrence. -/
theorem cleanup_repeated_counterexample :
    cleanupShape [((0 : ℝ), 0), (0, 0)] 1 ≠ [((0 : ℝ), 0), (0, 0)] := by
  have h1 : cleanupShape [((0 : ℝ), 0), (0, 0)] 1 = normalCleanup [((0 : ℝ), 0), (0, 0)] := by
    simp [cleanupShape]
  have h2 : normalCleanup [((0 : ℝ), 0), (0, 0)] = [((0 : ℝ), 0)] := by
    have := normalCleanup_cons_replicate ((0 : ℝ), 0) 1
    simpa using this
  rw [h1, h2]
  simp

/-- C9 (amended). A degenerate input consisting of a single repeated
point: with one occurrence, cleanupShape returns it unchanged under
every mode; with k+1 occurrences, mode None (and any unknown mode)
returns it unchanged while modes Normal and Aggressive collapse it to
the single point (so the input is unchanged only when the repeated
point occurs exactly once); autoScaleShape returns the input unchanged
for every number of occurrences, with no division by zero. -/
theorem cleanup_degenerate_spec (p : Point ℝ) (k : ℕ) (m : ℤ) :
    cleanupShape [p] m = [p] ∧
    cleanupShape (p :: List.replicate k p) 0 = p :: List.replicate k p ∧
    cleanupShape (p :: List.replicate k p) 1 = [p] ∧
    cleanupShape (p :: List.replicate k p) 2 = [p] ∧
    autoScaleShape (List.replicate k p) = List.replicate k p := by
  refine ⟨?_, by simp [cleanupShape], ?_, ?_, ?_⟩
  · rw [cleanupShape]
    by_cases h0 : m = 0
    · rw [if_pos h0]
    rw [if_neg h0]
    by_cases h1 : m = 1
    · rw [if_pos h1, normalCleanup_singleton]
    rw [if_neg h1]
    by_cases h2 : m = 2
    · rw [if_pos h2]
      have := aggressiveCleanup_cons_replicate p 0
      simpa using this
    rw [if_neg h2]
  · have hm : cleanupShape (p :: List.replicate k p) 1 =
        normalCleanup (p :: List.replicate k p) := by
      simp [cleanupShape]
    rw [hm, normalCleanup_cons_replicate]
  · have hm : cleanupShape (p :: List.replicate k p) 2 =
        aggressiveCleanup (p :: List.replicate k p) := by
      simp [cleanupShape]
    rw [hm, aggressiveCleanup_cons_replicate]
  · cases k with
    | zero => rfl
    | succ n =>
      rw [List.replicate_succ]
      have h0 : bboxMaxDim p (List.replicate n p) = 0 := by
        rw [bboxMaxDim_eq_zero_iff]
        intro q hq
        rcases List.mem_cons.mp hq with rfl | hq'
        · rfl
        · exact List.eq_of_mem_replicate hq'
      simp only [autoScaleShape]
      rw [if_pos h0]

/-- Witness for `cleanup_degenerate_spec`: instantiated at a concrete
point, repetition count and mode. -/
theorem cleanup_degenerate_spec_witness :
    cleanupShape [((2 : ℝ), 3)] 7 = [((2 : ℝ), 3)] ∧
    cleanupShape [((2 : ℝ), 3), (2, 3)] 1 = [((2 : ℝ), 3)] :=
  ⟨(cleanup_degenerate_spec ((2 : ℝ), 3) 1 7).1,
    by
      have h := (cleanup_degenerate_spec ((2 : ℝ), 3) 1 7).2.2.1
      simpa using h⟩

/-!
## C8 — idempotence of the Normal pipeline

Normal cleanup is NOT idempotent: on
`[(0,0), (1/500, 1/2000), (1/20000, 0)]` the first pass keeps all three
points through the Deduplicator (consecutive gaps ≈ 2·10⁻³ ≫ 10⁻⁴), the
CollinearityFilter drops the middle point (cross product 2.5·10⁻⁸ ≤
10⁻³), and Douglas–Peucker passes the remaining two points through — but
those two survivors are only 5·10⁻⁵ apart, inside the Deduplicator
tolerance, so a second pass removes one of them.  No comparison in this
run sits at a tolerance boundary.  What does hold is that a second pass
never adds points.
-/

theorem normalCleanup_length_le (points : List (Point K)) :
    (normalCleanup points).length ≤ points.length := by
  rw [normalCleanup]
  by_cases hp : points.length = 0
  · rw [if_pos hp]
  · rw [if_neg hp]
    calc (douglasPeucker
          (removeCollinearPoints (removeDuplicatePoints points (1 / 10000)) (1 / 1000))
          (1 / 1000)).length
        ≤ (removeCollinearPoints (removeDuplicatePoints points (1 / 10000))
            (1 / 1000)).length := douglasPeucker_length_le _ _
      _ ≤ (removeDuplicatePoints points (1 / 10000)).length :=
          (removeCollinearPoints_sublist _ _).length_le
      _ ≤ points.length := removeDuplicatePoints_length_le _ _

/-- C8 counterexample: Normal cleanup is not idempotent; on this input
(no tolerance-boundary ties) the second pass removes a further point. -/
theorem normalCleanup_not_idempotent :
    normalCleanup (normalCleanup
        [((0 : ℚ), 0), (1 / 500, 1 / 2000), (1 / 20000, 0)]) ≠
      normalCleanup [((0 : ℚ), 0), (1 / 500, 1 / 2000), (1 / 20000, 0)] := by
  have h1 : normalCleanup [((0 : ℚ), 0), (1 / 500, 1 / 2000), (1 / 20000, 0)] =
      [((0 : ℚ), 0), (1 / 20000, 0)] := by
    have hd : removeDuplicatePoints
        [((0 : ℚ), 0), (1 / 500, 1 / 2000), (1 / 20000, 0)] (1 / 10000) =
        [((0 : ℚ), 0), (1 / 500, 1 / 2000), (1 / 20000, 0)] := by
      norm_num [removeDuplicatePoints, dedupAux, sqrtGt, distSq]
    have hc : removeCollinearPoints
        [((0 : ℚ), 0), (1 / 500, 1 / 2000), (1 / 20000, 0)] (1 / 1000) =
        [((0 : ℚ), 0), (1 / 20000, 0)] := by
      norm_num [removeCollinearPoints, keepNonCollinear, crossAbs, abs]
    rw [normalCleanup, if_neg (by simp), hd, hc,
      douglasPeucker_of_le_two _ _ (by simp)]
  have h2 : normalCleanup [((0 : ℚ), 0), (1 / 20000, 0)] = [((0 : ℚ), 0)] := by
    have hd : removeDuplicatePoints [((0 : ℚ), 0), (1 / 20000, 0)] (1 / 10000) =
        [((0 : ℚ), 0)] := by
      norm_num [removeDuplicatePoints, dedupAux, sqrtGt, distSq]
    have hc : removeCollinearPoints [((0 : ℚ), 0)] (1 / 1000) = [((0 : ℚ), 0)] := by
      rw [removeCollinearPoints, if_pos (by simp)]
    rw [normalCleanup, if_neg (by simp), hd, hc,
      douglasPeucker_of_le_two _ _ (by simp)]
  rw [h1, h2]
  simp

/-- C8 (amended). Normal cleanup is not idempotent in general — a second
pass can remove further points even away from tolerance boundaries (see
the counterexample: the CollinearityFilter can leave two surviving
points within the Deduplicator tolerance).  What holds is monotone
non-growth: one pass never returns more points than its input, and a
second pass never returns more points than the first. -/
theorem normalCleanup_second_pass (points : List (Point K)) :
    (normalCleanup points).length ≤ points.length ∧
    (normalCleanup (normalCleanup points)).length ≤ (normalCleanup points).length :=
  ⟨normalCleanup_length_le points, normalCleanup_length_le (normalCleanup points)⟩

/-!
## ContourExtractor: characterization of the per-ray minimum and the
360-ray sweep
-/

/-- One loop step of `findRayShapeIntersection`, phrased on the edge's
qualifying candidate. -/
def candStep (rs : Point K) (f : ℕ → Option (Point K))
    (b : Option (Point K)) (i : ℕ) : Option (Point K) :=
  match f i with
  | none => b
  | some q => updBest rs b q

theorem candStep_none (rs : Point K) (f : ℕ → Option (Point K))
    (b : Option (Point K)) (i : ℕ) (hf : f i = none) : candStep rs f b i = b := by
  unfold candStep
  rw [hf]

theorem candStep_some (rs : Point K) (f : ℕ → Option (Point K))
    (b : Option (Point K)) (i : ℕ) (q : Point K) (hf : f i = some q) :
    candStep rs f b i = updBest rs b q := by
  unfold candStep
  rw [hf]

/-- The `closest intersection` fold returns `none` exactly when there is
no qualifying candidate, and otherwise returns a qualifying candidate of
minimal distance to the ray start. -/
theorem candFold_spec (rs : Point K) (f : ℕ → Option (Point K)) :
    ∀ (l : List ℕ) (best : Option (Point K)),
    (l.foldl (candStep rs f) best = none ↔
      (best = none ∧ l.filterMap f = [])) ∧
    (∀ q, l.foldl (candStep rs f) best = some q →
      ((q ∈ l.filterMap f ∨ best = some q) ∧
       (∀ r ∈ l.filterMap f, distSq rs q ≤ distSq rs r) ∧
       (∀ b, best = some b → distSq rs q ≤ distSq rs b))) := by
  intro l
  induction l with
  | nil =>
    intro best
    constructor
    · simp
    · intro q hq
      simp only [List.foldl_nil] at hq
      refine ⟨Or.inr hq, by simp, ?_⟩
      intro b hb
      rw [hq] at hb
      injection hb with h
      rw [h]
  | cons i l ih =>
    intro best
    cases hf : f i with
    | none =>
      have hstep : candStep rs f best i = best := candStep_none rs f best i hf
      constructor
      · rw [List.foldl_cons, hstep, List.filterMap_cons, hf]
        exact (ih best).1
      · intro q hq
        rw [List.foldl_cons, hstep] at hq
        obtain ⟨m1, m2, m3⟩ := (ih best).2 q hq
        rw [List.filterMap_cons, hf]
        exact ⟨m1, m2, m3⟩
    | some q0 =>
      have hstep : candStep rs f best i = updBest rs best q0 :=
        candStep_some rs f best i q0 hf
      match best with
      | none =>
        have hub : updBest rs (none : Option (Point K)) q0 = some q0 := rfl
        constructor
        · rw [List.foldl_cons, hstep, hub, List.filterMap_cons, hf]
          constructor
          · intro hnone
            obtain ⟨hcontra, -⟩ := ((ih (some q0)).1).mp hnone
            exact Option.noConfusion hcontra
          · rintro ⟨-, hlist⟩
            exact List.noConfusion hlist
        · intro q hq
          rw [List.foldl_cons, hstep, hub] at hq
          obtain ⟨m1, m2, m3⟩ := (ih (some q0)).2 q hq
          rw [List.filterMap_cons, hf]
          refine ⟨?_, ?_, ?_⟩
          · rcases m1 with hm | hm
            · exact Or.inl (List.mem_cons_of_mem _ hm)
            · injection hm with h
              rw [← h]
              exact Or.inl (List.mem_cons_self _ _)
          · intro r hr
            rcases List.mem_cons.mp hr with rfl | hr'
            · exact m3 r rfl
            · exact m2 r hr'
          · intro b hb
            exact Option.noConfusion hb
      | some b =>
        by_cases hcmp : distSq rs q0 < distSq rs b
        · have hub : updBest rs (some b) q0 = some q0 := by
            show (if distSq rs q0 < distSq rs b then some q0 else some b) = some q0
            rw [if_pos hcmp]
          constructor
          · rw [List.foldl_cons, hstep, hub, List.filterMap_cons, hf]
            constructor
            · intro hnone
              obtain ⟨hcontra, -⟩ := ((ih (some q0)).1).mp hnone
              exact Option.noConfusion hcontra
            · rintro ⟨hcontra, -⟩
              exact Option.noConfusion hcontra
          · intro q hq
            rw [List.foldl_cons, hstep, hub] at hq
            obtain ⟨m1, m2, m3⟩ := (ih (some q0)).2 q hq
            rw [List.filterMap_cons, hf]
            have hq0 : distSq rs q ≤ distSq rs q0 := m3 q0 rfl
            refine ⟨?_, ?_, ?_⟩
            · rcases m1 with hm | hm
              · exact Or.inl (List.mem_cons_of_mem _ hm)
              · injection hm with h
                rw [← h]
                exact Or.inl (List.mem_cons_self _ _)
            · intro r hr
              rcases List.mem_cons.mp hr with rfl | hr'
              · exact hq0
              · exact m2 r hr'
            · intro b0 hb0
              injection hb0 with h
              rw [← h]
              exact le_of_lt (lt_of_le_of_lt hq0 hcmp)
        · have hub : updBest rs (some b) q0 = some b := by
            show (if distSq rs q0 < distSq rs b then some q0 else some b) = some b
            rw [if_neg hcmp]
          constructor
          · rw [List.foldl_cons, hstep, hub, List.filterMap_cons, hf]
            constructor
            · intro hnone
              obtain ⟨hcontra, -⟩ := ((ih (some b)).1).mp hnone
              exact Option.noConfusion hcontra
            · rintro ⟨hcontra, -⟩
              exact Option.noConfusion hcontra
          · intro q hq
            rw [List.foldl_cons, hstep, hub] at hq
            obtain ⟨m1, m2, m3⟩ := (ih (some b)).2 q hq
            rw [List.filterMap_cons, hf]
            have hqb : distSq rs q ≤ distSq rs b := m3 b rfl
            refine ⟨?_, ?_, ?_⟩
            · rcases m1 with hm | hm
              · exact Or.inl (List.mem_cons_of_mem _ hm)
              · exact Or.inr hm
            · intro r hr
              rcases List.mem_cons.mp hr with rfl | hr'
              · exact le_trans hqb (not_lt.mp hcmp)
              · exact m2 r hr'
            · intro b0 hb0
              injection hb0 with h
              rw [← h]
              exact hqb

/-- `findRayShapeIntersection` is the candidate fold over the edge
indices. -/
theorem findRay_eq_candFold (rs re : Point K) (pts : List (Point K)) :
    findRayShapeIntersection rs re pts =
      (List.range pts.length).foldl
        (candStep rs (fun i =>
          rayCand rs re (pts.getD i (0, 0)) (pts.getD ((i + 1) % pts.length) (0, 0))))
        none := by
  unfold findRayShapeIntersection
  congr 1
  funext b i
  rw [rayStep_eq_updBest]
  rfl

/-- C6 part: `findRayShapeIntersection` characterized against
`rayCandidates`. -/
theorem findRay_spec (rs re : Point K) (pts : List (Point K)) :
    (findRayShapeIntersection rs re pts = none ↔ rayCandidates rs re pts = []) ∧
    (∀ q, findRayShapeIntersection rs re pts = some q →
      q ∈ rayCandidates rs re pts ∧
      ∀ r ∈ rayCandidates rs re pts, distSq rs q ≤ distSq rs r) := by
  have hcand : rayCandidates rs re pts =
      (List.range pts.length).filterMap (fun i =>
        rayCand rs re (pts.getD i (0, 0)) (pts.getD ((i + 1) % pts.length) (0, 0))) := rfl
  obtain ⟨h1, h2⟩ := candFold_spec rs
    (fun i => rayCand rs re (pts.getD i (0, 0)) (pts.getD ((i + 1) % pts.length) (0, 0)))
    (List.range pts.length) none
  constructor
  · rw [findRay_eq_candFold, hcand, h1]
    simp
  · intro q hq
    rw [findRay_eq_candFold] at hq
    obtain ⟨m1, m2, -⟩ := h2 q hq
    rw [hcand]
    refine ⟨?_, m2⟩
    rcases m1 with hm | hm
    · exact hm
    · exact Option.noConfusion hm

/-- Folding "append the hit, if any" over a list is `filterMap`. -/
theorem foldl_push_filterMap (g : ℕ → Option (Point ℝ)) (l : List ℕ)
    (acc : List (Point ℝ)) :
    l.foldl (fun acc2 i =>
        match g i with
        | some q => acc2 ++ [q]
        | none => acc2) acc =
      acc ++ l.filterMap g := by
  induction l generalizing acc with
  | nil => simp
  | cons x xs ih =>
    simp only [List.foldl_cons, List.filterMap_cons]
    cases hg : g x with
    | none =>
      simp only [hg]
      exact ih acc
    | some q =>
      simp only [hg]
      rw [ih (acc ++ [q])]
      simp

theorem calculateMaxRadius_nonneg (points : List (Point ℝ)) (center : Point ℝ) :
    0 ≤ calculateMaxRadius points center := by
  unfold calculateMaxRadius
  have : ∀ (l : List (Point ℝ)) (a : ℝ), 0 ≤ a →
      0 ≤ l.foldl (fun m p => max m (Real.sqrt (distSq center p))) a := by
    intro l
    induction l with
    | nil => intro a ha; simpa using ha
    | cons p rest ih =>
      intro a ha
      rw [List.foldl_cons]
      exact ih _ (le_trans ha (le_max_left _ _))
  exact this points 0 (le_refl _)

/-- Every ray start lies at distance `1.5 × maxRadius` from the center
(squared distances; `cos² + sin² = 1`). -/
theorem rayStart_distSq (points : List (Point ℝ)) (i : ℕ) :
    distSq (rayStartPoint points i) (calculateShapeCenter points) =
      (calculateMaxRadius points (calculateShapeCenter points) * 1.5) ^ 2 := by
  unfold rayStartPoint distSq
  dsimp only
  have h := Real.sin_sq_add_cos_sq ((i : ℝ) / 360 * Real.pi * 2)
  linear_combination
    (calculateMaxRadius points (calculateShapeCenter points) * 1.5) ^ 2 * h

/-- C6. createOuterContourByRaySampling (the ContourExtractor): inputs
with fewer than 3 points are returned unchanged; otherwise the center is
the arithmetic mean of the points, exactly 360 rays are cast at equal
angular increments (θᵢ = i/360·π·2), each starting at distance
1.5 × maxRadius from the center in direction (cos θᵢ, sin θᵢ) and aimed
at the center, and the output is, in ray-angle order, each ray's nearest
qualifying intersection (nonnegative dot product with the ray
direction), rays without a qualifying intersection contributing
nothing; hence the output never exceeds 360 points. -/
theorem contourExtractor_spec (points : List (Point ℝ)) :
    (points.length < 3 → createOuterContourByRaySampling points = points) ∧
    (3 ≤ points.length → createOuterContourByRaySampling points =
      (List.range 360).filterMap (fun i =>
        findRayShapeIntersection (rayStartPoint points i)
          (calculateShapeCenter points) points)) ∧
    (createOuterContourByRaySampling points).length ≤ 360 ∧
    calculateShapeCenter points =
      ((points.map Prod.fst).sum / points.length,
        (points.map Prod.snd).sum / points.length) ∧
    (∀ i : ℕ, 0 ≤ calculateMaxRadius points (calculateShapeCenter points) ∧
      distSq (rayStartPoint points i) (calculateShapeCenter points) =
        (calculateMaxRadius points (calculateShapeCenter points) * 1.5) ^ 2) ∧
    (∀ (rs re : Point ℝ) (pts : List (Point ℝ)),
      (findRayShapeIntersection rs re pts = none ↔ rayCandidates rs re pts = []) ∧
      (∀ q, findRayShapeIntersection rs re pts = some q →
        q ∈ rayCandidates rs re pts ∧
        ∀ r ∈ rayCandidates rs re pts, distSq rs q ≤ distSq rs r)) := by
  have hfm : ∀ h : ¬points.length < 3, createOuterContourByRaySampling points =
      (List.range 360).filterMap (fun i =>
        findRayShapeIntersection (rayStartPoint points i)
          (calculateShapeCenter points) points) := by
    intro h
    rw [createOuterContourByRaySampling, if_neg h]
    have hpush := foldl_push_filterMap
      (fun i => findRayShapeIntersection (rayStartPoint points i)
        (calculateShapeCenter points) points) (List.range 360) []
    exact hpush.trans (by simp)
  refine ⟨?_, ?_, ?_, rfl, ?_, findRay_spec⟩
  · intro h
    rw [createOuterContourByRaySampling, if_pos h]
  · intro h3
    exact hfm (by omega)
  · by_cases h : points.length < 3
    · rw [createOuterContourByRaySampling, if_pos h]
      omega
    · rw [hfm h]
      calc ((List.range 360).filterMap _).length
          ≤ (List.range 360).length := List.length_filterMap_le _ _
        _ = 360 := List.length_range 360
  · intro i
    exact ⟨calculateMaxRadius_nonneg points _, rayStart_distSq points i⟩

/-- Witness for `contourExtractor_spec`: a concrete input with fewer
than 3 points passes through unchanged, and its output length is within
the 360 bound. -/
theorem contourExtractor_spec_witness :
    createOuterContourByRaySampling [((0 : ℝ), 0), (1, 0)] = [((0 : ℝ), 0), (1, 0)] ∧
    (createOuterContourByRaySampling [((0 : ℝ), 0), (1, 0)]).length ≤ 360 :=
  ⟨(contourExtractor_spec [((0 : ℝ), 0), (1, 0)]).1 (by decide),
    (contourExtractor_spec [((0 : ℝ), 0), (1, 0)]).2.2.1⟩

end Woodcutter
